import Mathlib

/-!
Verification of the Session Board visualization core of the
claude-code-history-viewer repository: a shallow embedding of the
label-placement algorithm, the density-intensity computation, the
brush matcher, the popover placement geometry, the interaction-card
rendering guard and the navigation controller, together with theorems
settling the specification's claims about them.

Strings of the host language are modelled as lists of characters
(`Str`), so that string operations (`endsWith`, `includes`, equality)
become list operations with exact semantics.
-/

abbrev Str := List Char

/-! ## LabelPlacer (`selectLabelIndices` of ContributionGrid)

Layout constants from the source: `BAR_WIDTH = 14`, `BAR_GAP = 3`,
`SLOT_WIDTH = BAR_WIDTH + BAR_GAP = 17`, `MIN_LABEL_GAP_PX = 44`.
-/

def BAR_WIDTH : ℕ := 14
def BAR_GAP : ℕ := 3
def SLOT_WIDTH : ℕ := BAR_WIDTH + BAR_GAP
def MIN_LABEL_GAP_PX : ℕ := 44

/-- `Math.ceil(MIN_LABEL_GAP_PX / SLOT_WIDTH)` on exact arithmetic. -/
def minSlots : ℕ := (MIN_LABEL_GAP_PX + SLOT_WIDTH - 1) / SLOT_WIDTH

/-- `Math.max(2, Math.floor(minSlots * 0.55))` on exact arithmetic:
the relaxed threshold used for the final label. -/
def finalThreshold : ℕ := max 2 (minSlots * 55 / 100)

/-- The `for (let i = 1; i < count - 1; i++)` loop of
`selectLabelIndices`, with the remaining iteration count as fuel.
The accumulator is the `indices` array; `indices[indices.length - 1] ?? 0`
is `indices.getLast?.getD 0`.  The source condition `i - last >= minSlots`
on integers is `last + minSlots ≤ i` (both are false when `last > i`). -/
def scanAux (m : ℕ) : ℕ → ℕ → List ℕ → List ℕ
  | 0, _, indices => indices
  | fuel + 1, i, indices =>
      let lst := indices.getLast?.getD 0
      scanAux m fuel (i + 1) (if lst + m ≤ i then indices ++ [i] else indices)

/-- Shallow embedding of `selectLabelIndices(count)` from
`ContributionGrid.tsx`: greedy left-to-right scan starting at index 0,
then conditional inclusion of the final index under the relaxed
threshold. -/
def selectLabelIndices (count : ℕ) : List ℕ :=
  if count = 0 then []
  else if count = 1 then [0]
  else
    let indices := scanAux minSlots (count - 2) 1 [0]
    let lst := indices.getLast?.getD 0
    let lastIdx := count - 1
    if lst < lastIdx ∧ finalThreshold ≤ lastIdx - lst then indices ++ [lastIdx]
    else indices

/-! ### Specification-side greedy description

`greedyScan` follows the claim's wording: walk the indices carrying the
last included index explicitly, and include `i` exactly when
`i - lastIncluded ≥ minSlots`.  It returns the included indices after 0
together with the final value of `lastIncluded`. -/

def greedyScan (m : ℕ) : ℕ → ℕ → ℕ → List ℕ × ℕ
  | 0, _, lastInc => ([], lastInc)
  | fuel + 1, i, lastInc =>
      if lastInc + m ≤ i then
        let r := greedyScan m fuel (i + 1) i
        (i :: r.1, r.2)
      else greedyScan m fuel (i + 1) lastInc

/-- The claim's description of the algorithm: `[]` for 0 slots, `[0]`
for 1 slot, otherwise index 0, then each `i ∈ 1..count-2` included iff
it is at least `minSlots` past the last included index, then the final
index `count - 1` included iff it is at least `finalThreshold` past the
last included index. -/
def greedySpecLabels (count : ℕ) : List ℕ :=
  if count = 0 then []
  else if count = 1 then [0]
  else
    let r := greedyScan minSlots (count - 2) 1 0
    if r.2 + finalThreshold ≤ count - 1 then 0 :: r.1 ++ [count - 1]
    else 0 :: r.1

/-! ### Relating the array-accumulator loop to the explicit-last scan -/

theorem scanAux_concat (m : ℕ) :
    ∀ (fuel i : ℕ) (l : List ℕ) (a : ℕ),
      scanAux m fuel i (l ++ [a]) =
        (l ++ [a]) ++ (greedyScan m fuel i a).1 ∧
      (scanAux m fuel i (l ++ [a])).getLast?.getD 0 = (greedyScan m fuel i a).2 := by
  intro fuel
  induction fuel with
  | zero =>
      intro i l a
      simp [scanAux, greedyScan, List.getLast?_concat]
  | succ n ih =>
      intro i l a
      have hlast : (l ++ [a]).getLast?.getD 0 = a := by
        simp [List.getLast?_concat]
      by_cases h : a + m ≤ i
      · have h1 := ih (i + 1) (l ++ [a]) i
        constructor
        · calc scanAux m (n + 1) i (l ++ [a])
              = scanAux m n (i + 1) ((l ++ [a]) ++ [i]) := by
                simp [scanAux, hlast, h]
            _ = ((l ++ [a]) ++ [i]) ++ (greedyScan m n (i + 1) i).1 := h1.1
            _ = (l ++ [a]) ++ (greedyScan m (n + 1) i a).1 := by
                simp [greedyScan, h]
        · calc (scanAux m (n + 1) i (l ++ [a])).getLast?.getD 0
              = (scanAux m n (i + 1) ((l ++ [a]) ++ [i])).getLast?.getD 0 := by
                simp [scanAux, hlast, h]
            _ = (greedyScan m n (i + 1) i).2 := h1.2
            _ = (greedyScan m (n + 1) i a).2 := by
                simp [greedyScan, h]
      · have h1 := ih (i + 1) l a
        constructor
        · calc scanAux m (n + 1) i (l ++ [a])
              = scanAux m n (i + 1) (l ++ [a]) := by
                simp [scanAux, hlast, h]
            _ = (l ++ [a]) ++ (greedyScan m n (i + 1) a).1 := h1.1
            _ = (l ++ [a]) ++ (greedyScan m (n + 1) i a).1 := by
                simp [greedyScan, h]
        · calc (scanAux m (n + 1) i (l ++ [a])).getLast?.getD 0
              = (scanAux m n (i + 1) (l ++ [a])).getLast?.getD 0 := by
                simp [scanAux, hlast, h]
            _ = (greedyScan m n (i + 1) a).2 := h1.2
            _ = (greedyScan m (n + 1) i a).2 := by
                simp [greedyScan, h]

/-- The loop of the source applied to the initial accumulator `[0]`. -/
theorem scanAux_from_zero (m fuel i : ℕ) :
    scanAux m fuel i [0] = 0 :: (greedyScan m fuel i 0).1 ∧
    (scanAux m fuel i [0]).getLast?.getD 0 = (greedyScan m fuel i 0).2 := by
  have h := scanAux_concat m fuel i [] 0
  simpa using h

/-- The source function and the claim's greedy description agree. -/
theorem selectLabelIndices_eq_greedy (count : ℕ) :
    selectLabelIndices count = greedySpecLabels count := by
  by_cases h0 : count = 0
  · simp [selectLabelIndices, greedySpecLabels, h0]
  by_cases h1 : count = 1
  · simp [selectLabelIndices, greedySpecLabels, h0, h1]
  have hs := scanAux_from_zero minSlots (count - 2) 1
  have hiff : ((scanAux minSlots (count - 2) 1 [0]).getLast?.getD 0 < count - 1 ∧
      finalThreshold ≤ (count - 1) - (scanAux minSlots (count - 2) 1 [0]).getLast?.getD 0) ↔
      (greedyScan minSlots (count - 2) 1 0).2 + finalThreshold ≤ count - 1 := by
    rw [hs.2]
    have hft : 2 ≤ finalThreshold := le_max_left _ _
    omega
  by_cases hc : (greedyScan minSlots (count - 2) 1 0).2 + finalThreshold ≤ count - 1
  · simp only [selectLabelIndices, greedySpecLabels, h0, h1, if_false]
    rw [if_pos (hiff.mpr hc), if_pos hc, hs.1]
  · simp only [selectLabelIndices, greedySpecLabels, h0, h1, if_false]
    rw [if_neg (fun hx => hc (hiff.mp hx)), if_neg hc, hs.1]

/-! ### Invariants of the greedy scan -/

theorem greedyScan_chain (m : ℕ) :
    ∀ (fuel i lastInc : ℕ),
      List.Chain (fun a b => a + m ≤ b) lastInc (greedyScan m fuel i lastInc).1 := by
  intro fuel
  induction fuel with
  | zero => intro i lastInc; simp [greedyScan]
  | succ n ih =>
      intro i lastInc
      by_cases h : lastInc + m ≤ i
      · simp only [greedyScan, if_pos h]
        exact List.Chain.cons h (ih (i + 1) i)
      · simp only [greedyScan, if_neg h]
        exact ih (i + 1) lastInc

theorem greedyScan_le_snd (m : ℕ) :
    ∀ (fuel i lastInc : ℕ),
      ∀ x ∈ lastInc :: (greedyScan m fuel i lastInc).1, x ≤ (greedyScan m fuel i lastInc).2 := by
  intro fuel
  induction fuel with
  | zero =>
      intro i lastInc x hx
      simp [greedyScan] at hx ⊢
      omega
  | succ n ih =>
      intro i lastInc x hx
      by_cases h : lastInc + m ≤ i
      · simp only [greedyScan, if_pos h] at hx ⊢
        rcases List.mem_cons.mp hx with h1 | h1
        · have := ih (i + 1) i i (List.mem_cons_self i _)
          omega
        · exact ih (i + 1) i x h1
      · simp only [greedyScan, if_neg h] at hx ⊢
        exact ih (i + 1) lastInc x hx

theorem chain_head_le (m : ℕ) :
    ∀ (l : List ℕ) (a : ℕ), List.Chain (fun x y => x + m ≤ y) a l →
      ∀ x ∈ a :: l, a ≤ x := by
  intro l
  induction l with
  | nil =>
      intro a _ x hx
      simp at hx
      omega
  | cons b t ih =>
      intro a hch x hx
      rcases List.chain_cons.mp hch with ⟨hab, hbt⟩
      rcases List.mem_cons.mp hx with h1 | h1
      · omega
      · have := ih b hbt x h1
        omega

theorem chain_pair_le (m : ℕ) :
    ∀ (l : List ℕ) (a : ℕ), List.Chain (fun x y => x + m ≤ y) a l →
      ∀ i j, i ∈ a :: l → j ∈ a :: l → i < j → i + m ≤ j := by
  intro l
  induction l with
  | nil =>
      intro a _ i j hi hj hij
      simp at hi hj
      omega
  | cons b t ih =>
      intro a hch i j hi hj hij
      rcases List.chain_cons.mp hch with ⟨hab, hbt⟩
      rcases List.mem_cons.mp hi with hi1 | hi1 <;> rcases List.mem_cons.mp hj with hj1 | hj1
      · omega
      · have := chain_head_le m t b hbt j hj1
        omega
      · have := chain_head_le m t b hbt i hi1
        omega
      · exact ih b hbt i j hi1 hj1 hij

/-! ### Claims about the label placer -/

/-- C2: for every slotCount, `selectLabelIndices` computes exactly the
greedy left-to-right result described by the specification (`[]` for 0,
`[0]` for 1, index 0 then each interior index at least
`ceil(44/17) = 3` slots past the last included one, then the final
index under the relaxed threshold `max(2, floor(3 * 0.55)) = 2`). -/
theorem selectLabelIndices_is_greedy :
    (∀ count : ℕ, selectLabelIndices count = greedySpecLabels count) ∧
    minSlots = 3 ∧ finalThreshold = 2 :=
  ⟨selectLabelIndices_eq_greedy, by decide, by decide⟩

/-- C1 counterexample: at slotCount = 6 the result is `[0, 3, 5]`, and
the pair (3, 5) is closer than the minimum pixel gap
(`2 * 17 = 34 < 44`) yet is not the first/last pair `(0, 5)`. -/
theorem selectLabelIndices_six_collision :
    selectLabelIndices 6 = [0, 3, 5] ∧
    (5 - 3) * SLOT_WIDTH < MIN_LABEL_GAP_PX ∧ ¬(3 = 0 ∧ 5 = 6 - 1) := by
  decide

/-- C1 (amended): for every slotCount ≥ 1, `selectLabelIndices` always
includes index 0; any two returned indices are at least 2 slots apart,
and a pair with `abs(i-j) * SLOT_WIDTH < MIN_LABEL_GAP_PX` can only
have the final index `slotCount - 1` (included via the relaxed
threshold) as its larger member — not only the first/last pair. -/
theorem selectLabelIndices_gap_invariant (count : ℕ) (hc : 1 ≤ count) :
    0 ∈ selectLabelIndices count ∧
    ∀ i j, i ∈ selectLabelIndices count → j ∈ selectLabelIndices count → i < j →
      i + 2 ≤ j ∧ ((j - i) * SLOT_WIDTH < MIN_LABEL_GAP_PX → j = count - 1) := by
  rw [selectLabelIndices_eq_greedy]
  by_cases h1 : count = 1
  · subst h1
    refine ⟨by simp [greedySpecLabels], ?_⟩
    intro i j hi hj hij
    simp [greedySpecLabels] at hi hj
    omega
  have h0 : ¬ count = 0 := by omega
  have hms : minSlots = 3 := by decide
  have hft : finalThreshold = 2 := by decide
  have hsw : SLOT_WIDTH = 17 := by decide
  have hgap : MIN_LABEL_GAP_PX = 44 := by decide
  have hchain := greedyScan_chain minSlots (count - 2) 1 0
  have hpair := chain_pair_le minSlots _ 0 hchain
  have hle := greedyScan_le_snd minSlots (count - 2) 1 0
  by_cases hc2 : (greedyScan minSlots (count - 2) 1 0).2 + finalThreshold ≤ count - 1
  · have hres : greedySpecLabels count =
        0 :: (greedyScan minSlots (count - 2) 1 0).1 ++ [count - 1] := by
      simp only [greedySpecLabels, h0, h1, if_false]
      rw [if_pos hc2]
    rw [hres]
    refine ⟨by simp, ?_⟩
    intro i j hi hj hij
    have hmem : ∀ x : ℕ, x ∈ 0 :: (greedyScan minSlots (count - 2) 1 0).1 ++ [count - 1] →
        x ∈ 0 :: (greedyScan minSlots (count - 2) 1 0).1 ∨ x = count - 1 := by
      intro x hx
      rcases List.mem_cons.mp hx with h | h
      · exact Or.inl (by simp [h])
      · rcases List.mem_append.mp h with h | h
        · exact Or.inl (List.mem_cons_of_mem _ h)
        · simp at h
          exact Or.inr h
    rcases hmem i hi with hi' | hi' <;> rcases hmem j hj with hj' | hj'
    · have h3 := hpair i j hi' hj' hij
      refine ⟨by omega, ?_⟩
      intro hlt
      rw [hsw, hgap] at hlt
      omega
    · have h4 := hle i hi'
      subst hj'
      exact ⟨by omega, fun _ => rfl⟩
    · have h4 := hle j hj'
      subst hi'
      exact absurd hij (by omega)
    · exact absurd hij (by omega)
  · have hres : greedySpecLabels count = 0 :: (greedyScan minSlots (count - 2) 1 0).1 := by
      simp only [greedySpecLabels, h0, h1, if_false]
      rw [if_neg hc2]
    rw [hres]
    refine ⟨by simp, ?_⟩
    intro i j hi hj hij
    have h3 := hpair i j hi hj hij
    refine ⟨by omega, ?_⟩
    intro hlt
    rw [hsw, hgap] at hlt
    omega

/-- Witness for the C1 amended theorem at slotCount = 6 and the pair
(3, 5). -/
theorem selectLabelIndices_gap_invariant_witness :
    0 ∈ selectLabelIndices 6 ∧
      (3 + 2 ≤ 5 ∧ ((5 - 3) * SLOT_WIDTH < MIN_LABEL_GAP_PX → 5 = 6 - 1)) :=
  ⟨(selectLabelIndices_gap_invariant 6 (by decide)).1,
   (selectLabelIndices_gap_invariant 6 (by decide)).2 3 5 (by decide) (by decide) (by decide)⟩

/-! ## DensityAggregator intensity (`maxCount` and per-bar intensity of
ContributionGrid) -/

/-- Shallow embedding of the `maxCount` memo of `ContributionGrid`:
fold over the bars keeping the largest session count, starting at 0. -/
def maxCount (counts : List ℕ) : ℕ :=
  counts.foldl (fun mx c => if mx < c then c else mx) 0

/-- Shallow embedding of the per-bar intensity,
`maxCount > 0 ? bar.sessionCount / maxCount : 0`, on exact rational
arithmetic. -/
def intensity (counts : List ℕ) (c : ℕ) : ℚ :=
  if 0 < maxCount counts then (c : ℚ) / (maxCount counts : ℚ) else 0

theorem le_foldl_max :
    ∀ (l : List ℕ) (a : ℕ), a ≤ l.foldl (fun mx c => if mx < c then c else mx) a := by
  intro l
  induction l with
  | nil => intro a; simp
  | cons x t ih =>
      intro a
      have h1 : a ≤ if a < x then x else a := by
        split <;> omega
      calc a ≤ if a < x then x else a := h1
        _ ≤ t.foldl (fun mx c => if mx < c then c else mx) (if a < x then x else a) := ih _
        _ = (x :: t).foldl (fun mx c => if mx < c then c else mx) a := by simp [List.foldl_cons]

theorem mem_le_foldl_max :
    ∀ (l : List ℕ) (a c : ℕ), c ∈ l → c ≤ l.foldl (fun mx c => if mx < c then c else mx) a := by
  intro l
  induction l with
  | nil => intro a c hc; simp at hc
  | cons x t ih =>
      intro a c hc
      rcases List.mem_cons.mp hc with h | h
      · subst h
        have h1 : c ≤ if a < c then c else a := by
          split <;> omega
        calc c ≤ if a < c then c else a := h1
          _ ≤ t.foldl (fun mx c => if mx < c then c else mx) (if a < c then c else a) :=
            le_foldl_max t _
          _ = (c :: t).foldl (fun mx c => if mx < c then c else mx) a := by
            simp [List.foldl_cons]
      · calc c ≤ t.foldl (fun mx c => if mx < c then c else mx) (if a < x then x else a) :=
            ih _ c h
          _ = (x :: t).foldl (fun mx c => if mx < c then c else mx) a := by
            simp [List.foldl_cons]

theorem le_maxCount (counts : List ℕ) (c : ℕ) (hc : c ∈ counts) : c ≤ maxCount counts :=
  mem_le_foldl_max counts 0 c hc

/-- C3: for every list of bucket counts and every count in it, the
intensity is the count divided by the window maximum, lies in `[0, 1]`,
is 1 for a bucket holding the maximum (when that maximum is positive,
0 when all counts are 0), and is 0 for a zero count. -/
theorem intensity_normalized (counts : List ℕ) (c : ℕ) (hm : c ∈ counts) :
    0 ≤ intensity counts c ∧ intensity counts c ≤ 1 ∧
    intensity counts c = (c : ℚ) / (maxCount counts : ℚ) ∧
    (c = maxCount counts →
      intensity counts c = if maxCount counts = 0 then 0 else 1) ∧
    (c = 0 → intensity counts c = 0) := by
  have hcm : c ≤ maxCount counts := le_maxCount counts c hm
  by_cases h : 0 < maxCount counts
  · have hpos : (0 : ℚ) < (maxCount counts : ℚ) := by exact_mod_cast h
    simp only [intensity, if_pos h]
    refine ⟨div_nonneg (Nat.cast_nonneg c) hpos.le, ?_, trivial, ?_, ?_⟩
    · rw [div_le_one hpos]
      exact_mod_cast hcm
    · intro hceq
      rw [if_neg (by omega), hceq]
      exact div_self (ne_of_gt hpos)
    · intro h0
      rw [h0]
      simp
  · have h0 : maxCount counts = 0 := by omega
    have hc0 : c = 0 := by omega
    subst hc0
    simp [intensity, h, h0]

/-- Witness for C3 at counts `[2, 5]` and count 5. -/
theorem intensity_normalized_witness :
    0 ≤ intensity [2, 5] 5 ∧ intensity [2, 5] 5 ≤ 1 ∧
    intensity [2, 5] 5 = (5 : ℚ) / (maxCount [2, 5] : ℚ) ∧
    ((5 : ℕ) = maxCount [2, 5] →
      intensity [2, 5] 5 = if maxCount [2, 5] = 0 then 0 else 1) ∧
    ((5 : ℕ) = 0 → intensity [2, 5] 5 = 0) :=
  intensity_normalized [2, 5] 5 (by decide)

/-! ## BrushMatcher (`matchesBrush` of src/utils/brushMatchers.ts) -/

/-- The derived attributes of one event card that the brush matcher
reads (`BrushableCard` of board.types). -/
structure BrushableCard where
  model : Option Str
  variant : Str
  isError : Bool
  isCancelled : Bool
  isCommit : Bool
  editedFiles : List Str

/-- The transient filter criterion (`ActiveBrush` of board.types). -/
structure ActiveBrush where
  type : Str
  value : Str

/-- JS `String.prototype.includes`: substring containment, tested as
some drop of `s` having `sub` as a leading segment. -/
def jsIncludes (s sub : Str) : Bool :=
  (List.range (s.length + 1)).any fun k => sub.isPrefixOf (s.drop k)

/-- JS `String.prototype.endsWith`: string-suffix test. -/
def jsEndsWith (s post : Str) : Bool := post.isSuffixOf s

/-- Shallow embedding of `matchesBrush(brush, card)` from
`src/utils/brushMatchers.ts`: `null` matches everything, then a switch
on the brush type with a defensive `false` default. -/
def matchesBrush : Option ActiveBrush → BrushableCard → Bool
  | none, _ => true
  | some brush, card =>
      if brush.type = "model".data then
        match card.model with
        | none => false
        | some m => jsIncludes m brush.value
      else if brush.type = "tool".data then
        card.variant == brush.value
      else if brush.type = "status".data then
        if brush.value = "error".data then card.isError
        else if brush.value = "cancelled".data then card.isCancelled
        else if brush.value = "commit".data then card.isCommit
        else false
      else if brush.type = "file".data then
        card.editedFiles.any fun f => f == brush.value || jsEndsWith f brush.value
      else false

/-- Unfolding of the file branch of the switch. -/
theorem matchesBrush_file_eq (card : BrushableCard) (v : Str) :
    matchesBrush (some ⟨"file".data, v⟩) card =
      card.editedFiles.any (fun f => f == v || jsEndsWith f v) := by
  simp [matchesBrush]

/-- Unfolding of the status branch of the switch. -/
theorem matchesBrush_status_eq (card : BrushableCard) (v : Str) :
    matchesBrush (some ⟨"status".data, v⟩) card =
      (if v = "error".data then card.isError
       else if v = "cancelled".data then card.isCancelled
       else if v = "commit".data then card.isCommit
       else false) := by
  simp [matchesBrush]

/-- C8: the absent brush is the identity filter — it matches every
card. -/
theorem matchesBrush_none_matches (card : BrushableCard) :
    matchesBrush none card = true := rfl

/-- C4: a file brush matches exactly when some touched file equals the
brush value or ends with it as a string suffix; in particular the value
`a.md` matches a card touching `a.md` or `/x/y/a.md` but not one
touching only `a.mdx`. -/
theorem matchesBrush_file_semantics (card : BrushableCard) (v : Str) :
    (matchesBrush (some ⟨"file".data, v⟩) card = true ↔
      ∃ f ∈ card.editedFiles, f = v ∨ v <:+ f) ∧
    matchesBrush (some ⟨"file".data, "a.md".data⟩)
      ⟨none, [], false, false, false, ["a.md".data]⟩ = true ∧
    matchesBrush (some ⟨"file".data, "a.md".data⟩)
      ⟨none, [], false, false, false, ["/x/y/a.md".data]⟩ = true ∧
    matchesBrush (some ⟨"file".data, "a.md".data⟩)
      ⟨none, [], false, false, false, ["a.mdx".data]⟩ = false := by
  refine ⟨?_, by decide, by decide, by decide⟩
  rw [matchesBrush_file_eq, List.any_eq_true]
  simp only [Bool.or_eq_true, beq_iff_eq, jsEndsWith, List.isSuffixOf_iff_suffix]

/-- C5: a status brush reads the corresponding derived flag for the
values `error`, `cancelled` and `commit`, any other status value never
matches, and any brush type outside model/tool/status/file never
matches. -/
theorem matchesBrush_status_and_unknown (card : BrushableCard) (v t : Str) :
    matchesBrush (some ⟨"status".data, "error".data⟩) card = card.isError ∧
    matchesBrush (some ⟨"status".data, "cancelled".data⟩) card = card.isCancelled ∧
    matchesBrush (some ⟨"status".data, "commit".data⟩) card = card.isCommit ∧
    (v ≠ "error".data → v ≠ "cancelled".data → v ≠ "commit".data →
      matchesBrush (some ⟨"status".data, v⟩) card = false) ∧
    (t ∉ [("model".data : Str), "tool".data, "status".data, "file".data] →
      matchesBrush (some ⟨t, v⟩) card = false) := by
  refine ⟨?_, ?_, ?_, ?_, ?_⟩
  · rw [matchesBrush_status_eq, if_pos rfl]
  · rw [matchesBrush_status_eq, if_neg (by decide), if_pos rfl]
  · rw [matchesBrush_status_eq, if_neg (by decide), if_neg (by decide), if_pos rfl]
  · intro h1 h2 h3
    rw [matchesBrush_status_eq, if_neg h1, if_neg h2, if_neg h3]
  · intro ht
    simp only [List.mem_cons, List.not_mem_nil, or_false, not_or] at ht
    simp only [matchesBrush]
    rw [if_neg ht.1, if_neg ht.2.1, if_neg ht.2.2.1, if_neg ht.2.2.2]

/-- A concrete card used to witness the brush claims. -/
def sampleCard : BrushableCard :=
  ⟨some "claude-sonnet".data, "terminal".data, true, false, true, ["notes.md".data]⟩

/-- Witness for C5: an unknown status value and an unknown brush type
on a concrete card. -/
theorem matchesBrush_status_and_unknown_witness :
    matchesBrush (some ⟨"status".data, "ok".data⟩) sampleCard = false ∧
    matchesBrush (some ⟨"zzz".data, "ok".data⟩) sampleCard = false :=
  ⟨(matchesBrush_status_and_unknown sampleCard "ok".data "zzz".data).2.2.2.1
      (by decide) (by decide) (by decide),
   (matchesBrush_status_and_unknown sampleCard "ok".data "zzz".data).2.2.2.2
      (by decide)⟩

/-- C10: a file brush whose value is the empty string matches a card
exactly when the card touched at least one file, because every string
ends with the empty suffix. -/
theorem matchesBrush_file_empty_value (card : BrushableCard) :
    matchesBrush (some ⟨"file".data, ([] : Str)⟩) card = true ↔ card.editedFiles ≠ [] := by
  rw [matchesBrush_file_eq, List.any_eq_true]
  constructor
  · rintro ⟨f, hf, -⟩ h
    rw [h] at hf
    exact List.not_mem_nil f hf
  · intro h
    cases hc : card.editedFiles with
    | nil => exact absurd hc h
    | cons f ft => exact ⟨f, List.mem_cons_self f ft, by simp [jsEndsWith]⟩

/-! ## InteractionRenderer: expanded popover placement (`ExpandedCard`) -/

/-- The trigger element's bounding rectangle (`getBoundingClientRect`). -/
structure TriggerRect where
  left : ℚ
  top : ℚ
  right : ℚ
  bottom : ℚ

/-- The computed popover position and height bound. -/
structure PopoverPos where
  left : ℚ
  top : ℚ
  maxHeight : ℚ

def cardWidth : ℚ := 480
def popoverGap : ℚ := 12

/-- Shallow embedding of the placement computation of `ExpandedCard`:
start right of the trigger, flip left on right-edge overflow, bound the
height by `min(600, windowHeight - 40)`, shift up on bottom overflow
(bounded below by 20), and clamp the top to at least 20. -/
def placePopover (rect : TriggerRect) (windowWidth windowHeight : ℚ) : PopoverPos :=
  let left0 := rect.right + popoverGap
  let left :=
    if left0 + cardWidth > windowWidth - 20 then rect.left - cardWidth - popoverGap
    else left0
  let maxHeight := min 600 (windowHeight - 40)
  let top0 := rect.top
  let top1 :=
    if top0 + maxHeight > windowHeight - 20 then max 20 (windowHeight - maxHeight - 20)
    else top0
  let top2 := if top1 < 20 then 20 else top1
  ⟨left, top2, maxHeight⟩

/-- C7: the popover is placed at `triggerRect.right + gap`, flipping to
the left side of the trigger exactly when the right edge would overflow
the right viewport margin; the final top is at least the 20px top
margin, never lets `top + maxHeight` overflow the bottom margin, and is
the upward shift by just the needed amount. -/
theorem placePopover_geometry (rect : TriggerRect) (ww wh : ℚ) :
    (placePopover rect ww wh).left =
      (if rect.right + popoverGap + cardWidth > ww - 20
       then rect.left - cardWidth - popoverGap
       else rect.right + popoverGap) ∧
    20 ≤ (placePopover rect ww wh).top ∧
    (placePopover rect ww wh).top + (placePopover rect ww wh).maxHeight ≤ wh - 20 ∧
    (placePopover rect ww wh).top =
      max 20 (min rect.top (wh - (placePopover rect ww wh).maxHeight - 20)) := by
  simp only [placePopover]
  set mh := min (600 : ℚ) (wh - 40) with hmhdef
  have hmh : mh ≤ wh - 40 := min_le_right _ _
  have hmax : (20 : ℚ) ≤ max 20 (wh - mh - 20) := le_max_left _ _
  refine ⟨trivial, ?_, ?_, ?_⟩
  · by_cases h1 : rect.top + mh > wh - 20
    · rw [if_pos h1]
      by_cases h2 : max 20 (wh - mh - 20) < 20
      · rw [if_pos h2]
      · rw [if_neg h2]
        exact hmax
    · rw [if_neg h1]
      by_cases h2 : rect.top < 20
      · rw [if_pos h2]
      · rw [if_neg h2]
        linarith
  · by_cases h1 : rect.top + mh > wh - 20
    · rw [if_pos h1]
      by_cases h2 : max 20 (wh - mh - 20) < 20
      · rw [if_pos h2]
        linarith
      · rw [if_neg h2]
        rcases le_total (20 : ℚ) (wh - mh - 20) with h | h
        · rw [max_eq_right h]
          linarith
        · rw [max_eq_left h]
          linarith
    · rw [if_neg h1]
      by_cases h2 : rect.top < 20
      · rw [if_pos h2]
        linarith
      · rw [if_neg h2]
        linarith
  · by_cases h1 : rect.top + mh > wh - 20
    · rw [if_pos h1, if_neg (not_lt.mpr hmax), min_eq_right (by linarith)]
    · rw [if_neg h1]
      by_cases h2 : rect.top < 20
      · rw [if_pos h2, min_eq_left (by linarith), max_eq_left (by linarith)]
      · rw [if_neg h2, min_eq_left (by linarith), max_eq_right (by linarith)]

/-! ## InteractionRenderer: the empty-content guard of `InteractionCard` -/

/-- The whitespace characters stripped by JS `String.prototype.trim`
(space, tab, line feed, carriage return, vertical tab, form feed,
no-break space, byte order mark), identified by code point. -/
def jsWhitespaceChar (c : Char) : Bool :=
  c.toNat = 32 || c.toNat = 9 || c.toNat = 10 || c.toNat = 13 ||
  c.toNat = 11 || c.toNat = 12 || c.toNat = 160 || c.toNat = 65279

/-- JS `String.prototype.trim`: strip leading and trailing whitespace. -/
def jsTrim (s : Str) : Str :=
  ((s.dropWhile jsWhitespaceChar).reverse.dropWhile jsWhitespaceChar).reverse

/-- A tool invocation attached to a message. -/
structure ToolUse where
  name : Str
deriving DecidableEq

/-- Token usage attached to a message. -/
structure Usage where
  input_tokens : ℕ
  output_tokens : ℕ

/-- The fields of a message that the rendering guard and the pixel view
read. -/
structure ClaudeMessage where
  toolUse : Option ToolUse
  usage : Option Usage

/-- The three mutually exclusive renderings of one interaction. -/
inductive RenderedCard where
  | pixel (height : ℚ)
  | summaryCard
  | detailCard

/-- The level-0 tick height:
`Math.min(Math.max(totalTokens / 50, 4), 20)`. -/
def pixelHeight (msg : ClaudeMessage) : ℚ :=
  let total : ℚ :=
    (((msg.usage.map Usage.input_tokens).getD 0 +
      (msg.usage.map Usage.output_tokens).getD 0 : ℕ) : ℚ)
  min (max (total / 50) 4) 20

/-- Shallow embedding of the rendering decision of `InteractionCard`:
the extracted content (an external collaborator's output, `null`
coalesced to the empty string) and the tool flag drive the early
`return null`; otherwise one of the three zoom renderings is
produced. -/
def interactionCard (msg : ClaudeMessage) (extracted : Option Str)
    (zoomLevel : ℕ) : Option RenderedCard :=
  let content := extracted.getD []
  if jsTrim content = [] ∧ msg.toolUse = none then none
  else some
    (if zoomLevel = 0 then RenderedCard.pixel (pixelHeight msg)
     else if zoomLevel = 1 then RenderedCard.summaryCard
     else RenderedCard.detailCard)

theorem jsTrim_eq_nil (s : Str) (h : ∀ c ∈ s, jsWhitespaceChar c = true) :
    jsTrim s = [] := by
  have h1 : s.dropWhile jsWhitespaceChar = [] := List.dropWhile_eq_nil_iff.mpr h
  simp [jsTrim, h1]

/-- C9: at every zoom level, a message with no tool use whose extracted
content is empty or whitespace-only renders nothing — the card is
omitted from the board entirely. -/
theorem interactionCard_skips_blank (msg : ClaudeMessage) (extracted : Option Str)
    (z : ℕ) (htool : msg.toolUse = none)
    (hws : ∀ c ∈ extracted.getD [], jsWhitespaceChar c = true) :
    interactionCard msg extracted z = none := by
  simp only [interactionCard]
  rw [if_pos ⟨jsTrim_eq_nil _ hws, htool⟩]

/-- Witness for C9: a plain message whose extracted content is two
spaces, at zoom level 1. -/
theorem interactionCard_skips_blank_witness :
    interactionCard ⟨none, none⟩ (some "  ".data) 1 = none :=
  interactionCard_skips_blank ⟨none, none⟩ (some "  ".data) 1 rfl (by decide)

/-! ## NavigationController -/

/-- Modelled from the spec: the board view snapshot held in
`savedBoardView` — scroll offset, zoom level and the pinned-session
set.  The navigation slice itself is not among the provided source
files; this model follows the specification's NavigationController
contract. -/
structure BoardView where
  scrollOffset : ℤ
  zoomLevel : ℕ
  pinnedSessions : List Str

/-- Modelled from the spec: the three navigation phases. -/
inductive NavPhase where
  | idle
  | pendingJump
  | returning

/-- Modelled from the spec: the deep-link target and the saved board
view owned by the controller. -/
structure NavState where
  phase : NavPhase
  targetEventId : Option Str
  savedBoardView : Option BoardView

/-- Modelled from the spec: `Idle → PendingJump` — activating a link
captures the current board view as `savedBoardView` and sets the
target event. -/
def jumpToEvent (current : BoardView) (target : Str) (_s : NavState) : NavState :=
  ⟨NavPhase.pendingJump, some target, some current⟩

/-- Modelled from the spec: `PendingJump → Idle` — the detail view
scrolls to the target, then clears it; the saved board view is kept. -/
def completeJump (s : NavState) : NavState :=
  ⟨NavPhase.idle, none, s.savedBoardView⟩

/-- Modelled from the spec: `Idle → Returning → Idle` — back
navigation re-mounts the board, applies `savedBoardView` exactly and
clears it; the applied view is the first component. -/
def backToBoard (s : NavState) : Option BoardView × NavState :=
  (s.savedBoardView, ⟨NavPhase.idle, s.targetEventId, none⟩)

/-- C6: capturing the board view on jump-away, performing the jump and
navigating back restores a view equal component-wise (scroll offset,
zoom level, pinned-session set) to the pre-jump view, and the saved
snapshot is cleared afterwards. -/
theorem boardView_roundTrip (v : BoardView) (target : Str) (s : NavState) :
    (backToBoard (completeJump (jumpToEvent v target s))).1 = some v ∧
    (backToBoard (completeJump (jumpToEvent v target s))).1.map
      BoardView.scrollOffset = some v.scrollOffset ∧
    (backToBoard (completeJump (jumpToEvent v target s))).1.map
      BoardView.zoomLevel = some v.zoomLevel ∧
    (backToBoard (completeJump (jumpToEvent v target s))).1.map
      BoardView.pinnedSessions = some v.pinnedSessions ∧
    (backToBoard (completeJump (jumpToEvent v target s))).2.savedBoardView = none :=
  ⟨rfl, rfl, rfl, rfl, rfl⟩
